import Mathlib

/-!
Verification of the key-path utility library (`src/util.ts`) of the
mongo-object repository.

Modelling conventions (shallow embedding):

* JavaScript values are modelled by the inductive type `JsValue`.
  Strings are lists of characters, numbers are integers (the library never
  performs arithmetic on them), plain objects are association lists in
  insertion order, arrays are lists of values.
* A "hole" of a sparse JavaScript array (an index that is not an own
  property, as produced by `newDoc[key] = val` skipping earlier indices,
  or by `delete arr[i]`) is modelled by a `JsValue.vUndefined` element.
  This is observationally equivalent for every operation modelled here:
  iterating an array processes an explicit `undefined` element exactly the
  way a hole is skipped (both are dropped / both read back as `undefined`),
  and `.length` counts holes and explicit `undefined` elements alike.
* Functions that a JavaScript engine in strict mode would abort with a
  `TypeError` (property access on `null`/`undefined`, property assignment
  on a primitive) are modelled with `Option`, `none` meaning the thrown
  error.
* Keys (specific or generic key paths) are `List Char`.
-/

inductive JsValue : Type where
  | vUndefined : JsValue
  | vNull : JsValue
  | vBool (b : Bool) : JsValue
  | vNum (n : Int) : JsValue
  | vStr (s : List Char) : JsValue
  | vArr (elems : List JsValue) : JsValue
  | vObj (fields : List (List Char × JsValue)) : JsValue

mutual

/-- Structural equality of modelled JavaScript values (the `DecidableEq`
deriving handler does not support this nested inductive, so equality is
implemented by hand). -/
def beqVal : JsValue → JsValue → Bool
  | .vUndefined, .vUndefined => true
  | .vNull, .vNull => true
  | .vBool a, .vBool b => a = b
  | .vNum a, .vNum b => a = b
  | .vStr a, .vStr b => a = b
  | .vArr a, .vArr b => beqArr a b
  | .vObj a, .vObj b => beqObj a b
  | _, _ => false

def beqArr : List JsValue → List JsValue → Bool
  | [], [] => true
  | a :: as, b :: bs => beqVal a b && beqArr as bs
  | _, _ => false

def beqObj : List (List Char × JsValue) → List (List Char × JsValue) → Bool
  | [], [] => true
  | (k, a) :: as, (l, b) :: bs => k = l && beqVal a b && beqObj as bs
  | _, _ => false

end

mutual

theorem beqVal_refl : ∀ v : JsValue, beqVal v v = true
  | .vUndefined => rfl
  | .vNull => rfl
  | .vBool b => by simp [beqVal]
  | .vNum n => by simp [beqVal]
  | .vStr s => by simp [beqVal]
  | .vArr xs => by rw [beqVal]; exact beqArr_refl xs
  | .vObj fs => by rw [beqVal]; exact beqObj_refl fs

theorem beqArr_refl : ∀ l : List JsValue, beqArr l l = true
  | [] => rfl
  | v :: rest => by rw [beqArr, beqVal_refl v, beqArr_refl rest]; rfl

theorem beqObj_refl : ∀ l : List (List Char × JsValue), beqObj l l = true
  | [] => rfl
  | (k, v) :: rest => by rw [beqObj, beqVal_refl v, beqObj_refl rest]; simp

end

theorem ne_of_beqVal_false {a b : JsValue} (h : beqVal a b = false) : a ≠ b := by
  intro e
  subst e
  rw [beqVal_refl a] at h
  cases h

/-- Model of `isNullUndefinedOrEmptyString` from `src/util.ts`. -/
def isNullUndefinedOrEmptyString : JsValue → Bool
  | .vUndefined => true
  | .vNull => true
  | .vStr s => s.isEmpty
  | _ => false

/-- The test `typeof val === 'string' && val.length === 0` from the
`keepEmptyStrings` branch of `cleanNulls`. -/
def isEmptyStringVal : JsValue → Bool
  | .vStr s => s.isEmpty
  | _ => false

/-- Building a JavaScript array by assigning `newDoc[key] = val` only for the
kept keys of the source array leaves holes at the dropped indices, and the
array length is one past the last assigned index.  Starting from the
position-by-position image of the source (with dropped elements as holes,
see `cleanNullsArrCore`), the final array is obtained by removing the
trailing holes. -/
def dropTrailingUndef (xs : List JsValue) : List JsValue :=
  (xs.reverse.dropWhile (fun v => beqVal v .vUndefined)).reverse

mutual

/-- The body of `cleanNulls` from `src/util.ts`, factored per value: given a
value `val` stored under some key of the document being cleaned, returns
`some v` when `newDoc[key] = v` is executed and `none` when the key is
dropped.  Plain objects (`isBasicObject`, i.e. `JsValue.vObj` here — `null`,
arrays and primitives all fail that test) recurse in object mode and are kept
when the cleaned result `isEmpty` fails; arrays recurse in array mode the
same way; other values are kept unless null / undefined / empty string, with
empty strings kept when `keepEmptyStrings` is set. -/
def cleanNullsVal (keep : Bool) : JsValue → Option JsValue
  | .vObj fs =>
    let fs' := cleanNullsObj keep fs
    if fs'.isEmpty then none else some (.vObj fs')
  | .vArr xs =>
    let xs' := dropTrailingUndef (cleanNullsArrCore keep xs)
    if xs'.isEmpty then none else some (.vArr xs')
  | v =>
    if isNullUndefinedOrEmptyString v then
      (if keep && isEmptyStringVal v then some v else none)
    else some v

/-- Body of `cleanNulls` over the key/value pairs of a plain object: kept
keys in insertion order with their cleaned values. -/
def cleanNullsObj (keep : Bool) : List (List Char × JsValue) → List (List Char × JsValue)
  | [] => []
  | (k, v) :: rest =>
    match cleanNullsVal keep v with
    | some v' => (k, v') :: cleanNullsObj keep rest
    | none => cleanNullsObj keep rest

/-- Body of `cleanNulls` over the elements of an array, before trailing
holes are trimmed: a dropped element never gets assigned, leaving a hole
(`JsValue.vUndefined`) at its index. -/
def cleanNullsArrCore (keep : Bool) : List JsValue → List JsValue
  | [] => []
  | v :: rest => (cleanNullsVal keep v).getD .vUndefined :: cleanNullsArrCore keep rest

end

/-- Model of `cleanNulls(doc, isArray, keepEmptyStrings)` from `src/util.ts`.
Every call site passes `isArray = Array.isArray(doc)`; for a mismatched
combination (never exercised) the model returns the fresh empty container
`newDoc` untouched. -/
def cleanNulls (doc : JsValue) (isArray : Bool) (keep : Bool) : JsValue :=
  match doc, isArray with
  | .vObj fs, false => .vObj (cleanNullsObj keep fs)
  | .vArr xs, true => .vArr (dropTrailingUndef (cleanNullsArrCore keep xs))
  | _, true => .vArr []
  | _, false => .vObj []

/-- Model of `reportNulls`: the test applied to each value of the flat
document. -/
def nullReportable (keep : Bool) : JsValue → Bool
  | .vNull => true
  | .vUndefined => true
  | .vStr s => !keep && s.isEmpty
  | .vArr xs => (dropTrailingUndef (cleanNullsArrCore keep xs)).isEmpty
  | _ => false

/-- Model of `reportNulls(flatDoc, keepEmptyStrings)` from `src/util.ts`:
keys whose value is null, undefined, an empty string (when
`keepEmptyStrings` is false), or an array cleaned to length 0, each mapped
to the empty string. -/
def reportNulls (flat : List (List Char × JsValue)) (keep : Bool) :
    List (List Char × List Char) :=
  flat.filterMap (fun kv => if nullReportable keep kv.2 then some (kv.1, []) else none)

/-- Model of `genericKeyAffectsOtherGenericKey(key, affectedKey)` from
`src/util.ts`.  JavaScript `affectedKey.substring(0, key.length + 1)` is
`List.take (key.length + 1)`, `key.slice(-2)` is `List.drop (key.length - 2)`
and `key.slice(0, -2)` is `List.take (key.length - 2)` (both with the same
clamping behaviour on short strings). -/
def genericKeyAffectsOtherGenericKey (key affectedKey : List Char) : Bool :=
  if affectedKey = key then true
  else if affectedKey.take (key.length + 1) = key ++ ['.'] then true
  else if key.drop (key.length - 2) = ['.', '$'] ∧ key.take (key.length - 2) = affectedKey then
    true
  else false

/-- The lookahead `(?=\.|$)` of the replacement pattern of `makeKeyGeneric`:
satisfied at end of input or before a literal dot. -/
def lookaheadOk : List Char → Bool
  | [] => true
  | c :: _ => c = '.'

/-- One attempt of the regex `\.([0-9]+|\$\[[^\]]*\])(?=\.|$)` at a position
right after a literal dot: `s` is the input after that dot.  Returns
`some r` when the pattern matches there, `r` being the input after the
consumed token (the lookahead character is not consumed).  The alternative
`[0-9]+` takes the maximal digit run (giving back a digit would place a
digit under the lookahead, so no backtracking succeeds), and
`\$\[[^\]]*\]` takes everything up to the first `]`. -/
def matchAfterDot (s : List Char) : Option (List Char) :=
  if (s.takeWhile Char.isDigit).isEmpty then
    match s with
    | '$' :: '[' :: t =>
      match t.dropWhile (fun c => c ≠ ']') with
      | ']' :: r => if lookaheadOk r then some r else none
      | _ => none
    | _ => none
  else
    if lookaheadOk (s.dropWhile Char.isDigit) then some (s.dropWhile Char.isDigit) else none

/-- Left-to-right scan of `key.replace(/\.([0-9]+|\$\[[^\]]*\])(?=\.|$)/g, '.$')`.
The first argument counts input characters still to skip because they were
consumed by a match (this formulation keeps the recursion structural: every
recursive call is on the tail of the input).  At skip count `0`, a dot at
which the pattern matches emits `.$` and skips the consumed token, any other
character is copied and scanning resumes right after it. -/
def out2 : Nat → List Char → List Char
  | _, [] => []
  | n + 1, _ :: t => out2 n t
  | 0, c :: t =>
    if c = '.' then
      match matchAfterDot t with
      | some r => '.' :: '$' :: out2 (t.length - r.length) t
      | none => '.' :: out2 0 t
    else c :: out2 0 t

/-- The string transformation performed by `makeKeyGeneric` on a string
argument. -/
def makeKeyGenericCore (s : List Char) : List Char :=
  out2 0 s

/-- Model of `makeKeyGeneric(key)` from `src/util.ts`: `null` for a
non-string argument, otherwise the global regex replacement. -/
def makeKeyGeneric : JsValue → JsValue
  | .vStr s => .vStr (makeKeyGenericCore s)
  | _ => .vNull

/-- Model of `String.prototype.split(sep)` for a single-character
separator. -/
def splitOnChar (sep : Char) : List Char → List (List Char)
  | [] => [[]]
  | c :: rest =>
    match splitOnChar sep rest with
    | [] => [[]]
    | h :: t => if c = sep then [] :: h :: t else (c :: h) :: t

/-- The per-piece normalisation of `expandKey`: a trailing `]` is removed
(`subkey.slice(-1) === ']'` check). -/
def stripBracket (s : List Char) : List Char :=
  if s.getLast? = some ']' then s.dropLast else s

/-- Model of `Number.isNaN(parseInt(s, 10))`: `parseInt` skips leading
whitespace and an optional sign and is `NaN` exactly when no decimal digit
follows. -/
def parseIntNaN (s : List Char) : Bool :=
  let s1 := s.dropWhile (fun c => c = ' ' || c = '\t' || c = '\n' || c = '\r')
  let s2 := match s1 with
    | '-' :: t => t
    | '+' :: t => t
    | t => t
  match s2 with
  | c :: _ => !c.isDigit
  | [] => true

/-- JavaScript canonical array index strings: `arr["1"]` addresses element 1
but `arr["01"]` or `arr["x"]` would be ordinary string properties (which the
model does not store on arrays). -/
def canonIndex (s : List Char) : Option Nat :=
  if s ≠ [] ∧ s.all Char.isDigit ∧ (s.head? = some '0' → s = ['0']) then
    some (s.foldl (fun acc c => acc * 10 + (c.toNat - 48)) 0)
  else none

/-- Reading `current[subkey]`.  `none` models the `TypeError` thrown by a
property access on `null`/`undefined`; an absent property reads as
`undefined`.  Primitives box to wrapper objects without own properties
(except the character positions of strings). -/
def jsGetProp : JsValue → List Char → Option JsValue
  | .vObj fs, k => some ((fs.lookup k).getD .vUndefined)
  | .vArr xs, k =>
    some (match canonIndex k with
      | some i => xs.getD i .vUndefined
      | none => .vUndefined)
  | .vStr s, k =>
    some (match canonIndex k with
      | some i => if i < s.length then .vStr [s.getD i ' '] else .vUndefined
      | none => .vUndefined)
  | .vNull, _ => none
  | .vUndefined, _ => none
  | _, _ => some .vUndefined

/-- Replace the binding of `key` (objects have at most one binding per key;
on the association lists of the model the first one is replaced), or append
it. -/
def setField : List (List Char × JsValue) → List Char → JsValue → List (List Char × JsValue)
  | [], key, v => [(key, v)]
  | (k, w) :: rest, key, v =>
    if k = key then (k, v) :: rest else (k, w) :: setField rest key v

/-- Model of `delete obj[key]`. -/
def removeField (fs : List (List Char × JsValue)) (key : List Char) :
    List (List Char × JsValue) :=
  fs.filter (fun kv => kv.1 ≠ key)

/-- Writing `arr[i] = v`: assigning past the end extends the array with
holes up to index `i`. -/
def setListAt (xs : List JsValue) (i : Nat) (v : JsValue) : List JsValue :=
  if i < xs.length then xs.set i v
  else xs ++ List.replicate (i - xs.length) .vUndefined ++ [v]

/-- Writing `current[subkey] = v`.  `none` models the strict-mode
`TypeError` of assigning a property on a primitive, `null` or `undefined`;
a non-index key on an array (which JavaScript would store as a string
property) is outside the model and also mapped to `none`. -/
def jsSetProp : JsValue → List Char → JsValue → Option JsValue
  | .vObj fs, k, v => some (.vObj (setField fs k v))
  | .vArr xs, k, v =>
    (match canonIndex k with
      | some i => some (.vArr (setListAt xs i v))
      | none => none)
  | _, _, _ => none

/-- Model of `delete current[subkey]` right after the final assignment:
deleting an array index leaves a hole (the length does not change). -/
def jsDeleteProp : JsValue → List Char → Option JsValue
  | .vObj fs, k => some (.vObj (removeField fs k))
  | .vArr xs, k =>
    (match canonIndex k with
      | some i => some (.vArr (if i < xs.length then xs.set i .vUndefined else xs))
      | none => none)
  | _, _ => none

/-- The loop of `expandKey` over the pieces of `key.split('[')`.  Each piece
is stripped of a trailing `]`; at the last piece the value is assigned
(always overwriting) and, when the value is `undefined`, deleted; at every
other piece an unset (`undefined`) location is first filled with `[]` when
`parseInt` accepts the next (unstripped) piece and `{}` otherwise, and an
already-set location is walked into unchanged. -/
def expandKeyGo (val : JsValue) : List (List Char) → JsValue → Option JsValue
  | [], current => some current
  | [piece], current =>
    (match jsSetProp current (stripBracket piece) val with
      | none => none
      | some c =>
        if beqVal val .vUndefined then jsDeleteProp c (stripBracket piece) else some c)
  | piece :: next :: rest, current =>
    (match jsGetProp current (stripBracket piece) with
      | none => none
      | some slot =>
        let child := if beqVal slot .vUndefined then
            (if parseIntNaN next then .vObj [] else .vArr []) else slot
        match expandKeyGo val (next :: rest) child with
        | none => none
        | some c => jsSetProp current (stripBracket piece) c)

/-- Model of `expandKey(val, key, obj)` from `src/util.ts` (the returned
value is the mutated `obj`; `none` models a thrown `TypeError`). -/
def expandKey (val : JsValue) (key : List Char) (obj : JsValue) : Option JsValue :=
  expandKeyGo val (splitOnChar '[' key) obj

/-- CLAIM C1 — counterexample.  On the document
`{a: null, b: "", c: {d: null}, e: [null, 1]}` with `isArray = false` and
`keepEmptyStrings = false`, the sanitizer does NOT return `{e: [1]}`: the
element `1` of `e` is assigned at its original index `1` (`newDoc["1"] = 1`
on an initially empty array), so the surviving element is not re-indexed to
position 0. -/
theorem c1_sanitize_example_counterexample :
    cleanNulls
        (.vObj [(['a'], .vNull), (['b'], .vStr []),
                (['c'], .vObj [(['d'], .vNull)]),
                (['e'], .vArr [.vNull, .vNum 1])]) false false
      ≠ .vObj [(['e'], .vArr [.vNum 1])] :=
  ne_of_beqVal_false (by rfl)

/-- CLAIM C1 — amended.  The null and empty-string leaves and the container
emptied by sanitization are indeed dropped, but the surviving array element
keeps its original index: the result is `{e: [<hole>, 1]}`, an array of
length 2 whose index 0 is a hole and whose element `1` sits at index 1. -/
theorem c1_sanitize_example_amended :
    cleanNulls
        (.vObj [(['a'], .vNull), (['b'], .vStr []),
                (['c'], .vObj [(['d'], .vNull)]),
                (['e'], .vArr [.vNull, .vNum 1])]) false false
      = .vObj [(['e'], .vArr [.vUndefined, .vNum 1])] := rfl

/-- CLAIM C3 — counterexample.  `genericKeyAffectsOtherGenericKey("a.$", "a.0")`
returns `false`, not `true` as claimed: the first two rules fail
(`"a.0" ≠ "a.$"` and `"a.0"` does not start with `"a.$."`), and the third
rule compares `"a"` (the key minus `.$`) with `"a.0"`, which are different. -/
theorem c3_impliesKey_examples_counterexample :
    genericKeyAffectsOtherGenericKey ['a', '.', '$'] ['a', '.', '0'] = false := by
  decide

/-- CLAIM C3 — amended.  On the four concrete inputs the code returns:
`false` for candidate `a.$` and affected `a.0` (not `true` as the spec
claims), `false` for candidate `a.0` and affected `a.$`, `true` for
candidate `a` and affected `a.b`, and `false` for candidate `a.b` and
affected `a`. -/
theorem c3_impliesKey_examples_amended :
    genericKeyAffectsOtherGenericKey ['a', '.', '$'] ['a', '.', '0'] = false ∧
    genericKeyAffectsOtherGenericKey ['a', '.', '0'] ['a', '.', '$'] = false ∧
    genericKeyAffectsOtherGenericKey ['a'] ['a', '.', 'b'] = true ∧
    genericKeyAffectsOtherGenericKey ['a', '.', 'b'] ['a'] = false := by
  decide

/-- CLAIM C2.  `genericKeyAffectsOtherGenericKey(k, a)` returns true exactly
when `a` equals `k`, or `a` begins with `k` followed by a dot, or `k` ends
in `.$` and `k` with the trailing `.$` removed equals `a` (the last
condition is stated as `k = a ++ ".$"`). -/
theorem c2_impliesKey_characterisation (k a : List Char) :
    genericKeyAffectsOtherGenericKey k a = true ↔
      a = k ∨ (∃ t, a = k ++ '.' :: t) ∨ k = a ++ ['.', '$'] := by
  unfold genericKeyAffectsOtherGenericKey
  split_ifs with h1 h2 h3
  · exact iff_of_true rfl (Or.inl h1)
  · refine iff_of_true rfl (Or.inr (Or.inl ⟨a.drop (k.length + 1), ?_⟩))
    conv_lhs => rw [← List.take_append_drop (k.length + 1) a]
    rw [h2]
    simp
  · refine iff_of_true rfl (Or.inr (Or.inr ?_))
    conv_lhs => rw [← List.take_append_drop (k.length - 2) k]
    rw [h3.1, h3.2]
  · refine iff_of_false (by simp) ?_
    rintro (h | ⟨t, rfl⟩ | h)
    · exact h1 h
    · refine h2 ?_
      have : k ++ '.' :: t = (k ++ ['.']) ++ t := by simp
      rw [this, List.take_left' (by simp)]
    · refine h3 ?_
      subst h
      constructor
      · rw [List.drop_left' (by simp)]
      · rw [List.take_left' (by simp)]

theorem nullReportable_iff (keep : Bool) (v : JsValue) :
    nullReportable keep v = true ↔
      v = .vNull ∨ v = .vUndefined ∨ (keep = false ∧ v = .vStr []) ∨
        ((∃ xs, v = .vArr xs) ∧ cleanNulls v true keep = .vArr []) := by
  cases v <;> simp [nullReportable, cleanNulls, List.isEmpty_iff]

/-- CLAIM C8.  `reportNulls` marks exactly the keys whose value is null,
undefined, an empty string while `keepEmptyStrings` is false, or an array
with zero remaining elements after array-mode sanitization; marked keys are
bound to the empty string, every other key is absent; in particular
`reportNulls({a: null, b: "x", c: []})` is `{a: "", c: ""}`. -/
theorem c8_reportNulls_characterisation :
    (∀ (flat : List (List Char × JsValue)) (keep : Bool) (k : List Char),
        ((k, ([] : List Char)) ∈ reportNulls flat keep) ↔
          ∃ v, (k, v) ∈ flat ∧
            (v = .vNull ∨ v = .vUndefined ∨ (keep = false ∧ v = .vStr []) ∨
              ((∃ xs, v = .vArr xs) ∧ cleanNulls v true keep = .vArr []))) ∧
    (∀ (flat : List (List Char × JsValue)) (keep : Bool),
        (reportNulls flat keep).all (fun p => p.2.isEmpty) = true) ∧
    reportNulls [(['a'], .vNull), (['b'], .vStr ['x']), (['c'], .vArr [])] false
      = [(['a'], []), (['c'], [])] := by
  refine ⟨fun flat keep k => ?_, fun flat keep => ?_, rfl⟩
  · rw [reportNulls, List.mem_filterMap]
    constructor
    · rintro ⟨⟨k', v⟩, hmem, hf⟩
      by_cases hrep : nullReportable keep v = true
      · simp only [hrep, if_true] at hf
        obtain ⟨rfl, -⟩ : k' = k ∧ ([] : List Char) = [] := by
          simpa using hf
        exact ⟨v, hmem, (nullReportable_iff keep v).mp hrep⟩
      · simp only [Bool.not_eq_true] at hrep
        simp [hrep] at hf
    · rintro ⟨v, hmem, hv⟩
      refine ⟨(k, v), hmem, ?_⟩
      simp [(nullReportable_iff keep v).mpr hv]
  · rw [reportNulls, List.all_eq_true]
    intro p hp
    rw [List.mem_filterMap] at hp
    obtain ⟨kv, -, hf⟩ := hp
    by_cases hrep : nullReportable keep kv.2 = true
    · simp only [hrep, if_true, Option.some.injEq] at hf
      rw [← hf]
      rfl
    · simp only [Bool.not_eq_true] at hrep
      simp [hrep] at hf

theorem removeField_setField (fs : List (List Char × JsValue)) (k : List Char) (v : JsValue) :
    removeField (setField fs k v) k = removeField fs k := by
  induction fs with
  | nil => simp [setField, removeField]
  | cons kv rest ih =>
    obtain ⟨k1, w⟩ := kv
    by_cases h : k1 = k
    · subst h
      simp [setField, removeField, List.filter]
    · simp only [setField, removeField, List.filter, h, if_neg h]
      simp only [removeField] at ih
      simp only [decide_not] at ih ⊢
      simp [h, ih]

/-- CLAIM C7.  `expandKey` splits on `[`, strips trailing `]`, and walks the
container; at the final segment it assigns the value (always overwriting),
deleting the key instead when the value is `undefined`.  Consequently
`expandKey(1, "a[b][0]", {})` turns the container into `{a: {b: [1]}}` and
`expandKey(undefined, "a[b]", obj)` removes key `b` from `obj.a`. -/
theorem c7_expandKey_behaviour :
    expandKey (.vNum 1) ['a', '[', 'b', ']', '[', '0', ']'] (.vObj [])
        = some (.vObj [(['a'], .vObj [(['b'], .vArr [.vNum 1])])]) ∧
    (∀ (gs fs : List (List Char × JsValue)),
        expandKey .vUndefined ['a', '[', 'b', ']'] (.vObj ((['a'], .vObj gs) :: fs))
          = some (.vObj ((['a'], .vObj (removeField gs ['b'])) :: fs))) ∧
    (∀ (fs : List (List Char × JsValue)) (piece : List Char) (v : JsValue),
        expandKeyGo v [piece] (.vObj fs)
          = some (.vObj (if beqVal v .vUndefined then
              removeField fs (stripBracket piece)
            else setField fs (stripBracket piece) v))) := by
  refine ⟨rfl, fun gs fs => ?_, fun fs piece v => ?_⟩
  · show (some (JsValue.vObj ((['a'],
          JsValue.vObj (removeField (setField gs ['b'] JsValue.vUndefined) ['b'])) :: fs)) :
        Option JsValue)
        = some (JsValue.vObj ((['a'], JsValue.vObj (removeField gs ['b'])) :: fs))
    rw [removeField_setField]
  · show (if beqVal v .vUndefined then
          jsDeleteProp (.vObj (setField fs (stripBracket piece) v)) (stripBracket piece)
        else some (.vObj (setField fs (stripBracket piece) v))) = _
    cases hb : beqVal v .vUndefined
    · simp [hb]
    · simp [hb, jsDeleteProp, removeField_setField]

/-- CLAIM C10 (implicit).  At a non-final path segment `expandKey` creates a
fresh container (array when the next piece parses as an integer, object
otherwise) only when the current slot reads back as strictly `undefined`;
otherwise the walk continues into the existing value unchanged — it is
never replaced by a newly created container.  Walking into an existing
non-container value consequently aborts (strict-mode `TypeError`) rather
than building a fresh nested structure, as the two concrete cases show. -/
theorem c10_expandKey_existing_slot :
    (∀ (val : JsValue) (piece next : List Char) (rest : List (List Char))
        (fs : List (List Char × JsValue)),
        expandKeyGo val (piece :: next :: rest) (.vObj fs)
          = Option.map (fun c => JsValue.vObj (setField fs (stripBracket piece) c))
              (expandKeyGo val (next :: rest)
                (if beqVal ((fs.lookup (stripBracket piece)).getD .vUndefined) .vUndefined then
                  (if parseIntNaN next then .vObj [] else .vArr [])
                else (fs.lookup (stripBracket piece)).getD .vUndefined))) ∧
    expandKey (.vNum 1) ['a', '[', 'b', ']', '[', 'c', ']'] (.vObj [(['a'], .vNull)]) = none ∧
    expandKey (.vNum 1) ['a', '[', 'b', ']', '[', 'c', ']'] (.vObj [])
      = some (.vObj [(['a'], .vObj [(['b'], .vObj [(['c'], .vNum 1)])])]) := by
  refine ⟨fun val piece next rest fs => ?_, rfl, rfl⟩
  simp only [expandKeyGo, jsGetProp]
  cases h : expandKeyGo val (next :: rest)
      (if beqVal ((fs.lookup (stripBracket piece)).getD .vUndefined) .vUndefined then
        (if parseIntNaN next then .vObj [] else .vArr [])
      else (fs.lookup (stripBracket piece)).getD .vUndefined) <;>
    simp [h, jsSetProp]

/-- A container (plain object or array) holding zero keys/elements; every
other value is not an empty container. -/
def isEmptyContainer : JsValue → Bool
  | .vObj fs => fs.isEmpty
  | .vArr xs => xs.isEmpty
  | _ => false

mutual

/-- Every value nested strictly inside (object field values and array
elements, recursively) is not an empty container. -/
def noEmptyInside : JsValue → Bool
  | .vObj fs => noEmptyFields fs
  | .vArr xs => noEmptyElems xs
  | _ => true

def noEmptyFields : List (List Char × JsValue) → Bool
  | [] => true
  | (_, v) :: rest => !isEmptyContainer v && noEmptyInside v && noEmptyFields rest

def noEmptyElems : List JsValue → Bool
  | [] => true
  | v :: rest => !isEmptyContainer v && noEmptyInside v && noEmptyElems rest

end

theorem noEmptyFields_iff (l : List (List Char × JsValue)) :
    noEmptyFields l = true ↔
      ∀ kv ∈ l, isEmptyContainer kv.2 = false ∧ noEmptyInside kv.2 = true := by
  induction l with
  | nil => simp [noEmptyFields]
  | cons kv rest ih =>
    obtain ⟨k, v⟩ := kv
    rw [noEmptyFields, Bool.and_eq_true, Bool.and_eq_true, Bool.not_eq_true', ih]
    constructor
    · rintro ⟨⟨h1, h2⟩, h3⟩ kv hkv
      rcases List.mem_cons.mp hkv with rfl | hkv
      · exact ⟨h1, h2⟩
      · exact h3 _ hkv
    · intro h
      exact ⟨⟨(h _ (List.mem_cons_self _ _)).1, (h _ (List.mem_cons_self _ _)).2⟩,
        fun kv hkv => h _ (List.mem_cons_of_mem _ hkv)⟩

theorem noEmptyElems_iff (l : List JsValue) :
    noEmptyElems l = true ↔
      ∀ v ∈ l, isEmptyContainer v = false ∧ noEmptyInside v = true := by
  induction l with
  | nil => simp [noEmptyElems]
  | cons v rest ih =>
    rw [noEmptyElems, Bool.and_eq_true, Bool.and_eq_true, Bool.not_eq_true', ih]
    constructor
    · rintro ⟨⟨h1, h2⟩, h3⟩ w hw
      rcases List.mem_cons.mp hw with rfl | hw
      · exact ⟨h1, h2⟩
      · exact h3 _ hw
    · intro h
      exact ⟨⟨(h _ (List.mem_cons_self _ _)).1, (h _ (List.mem_cons_self _ _)).2⟩,
        fun w hw => h _ (List.mem_cons_of_mem _ hw)⟩

theorem mem_cleanNullsObj {keep : Bool} {fs : List (List Char × JsValue)}
    {k : List Char} {w : JsValue} (h : (k, w) ∈ cleanNullsObj keep fs) :
    ∃ v0, (k, v0) ∈ fs ∧ cleanNullsVal keep v0 = some w := by
  induction fs with
  | nil => simp [cleanNullsObj] at h
  | cons kv rest ih =>
    obtain ⟨k1, v1⟩ := kv
    rw [cleanNullsObj] at h
    cases hc : cleanNullsVal keep v1 with
    | some w1 =>
      rw [hc] at h
      rcases List.mem_cons.mp h with h2 | h2
      · obtain ⟨rfl, rfl⟩ : k = k1 ∧ w = w1 := by simpa using h2
        exact ⟨v1, List.mem_cons_self _ _, hc⟩
      · obtain ⟨v0, hm, he⟩ := ih h2
        exact ⟨v0, List.mem_cons_of_mem _ hm, he⟩
    | none =>
      rw [hc] at h
      obtain ⟨v0, hm, he⟩ := ih h
      exact ⟨v0, List.mem_cons_of_mem _ hm, he⟩

theorem mem_cleanNullsArrCore {keep : Bool} {xs : List JsValue} {w : JsValue}
    (h : w ∈ cleanNullsArrCore keep xs) :
    w = .vUndefined ∨ ∃ v0, v0 ∈ xs ∧ cleanNullsVal keep v0 = some w := by
  induction xs with
  | nil => simp [cleanNullsArrCore] at h
  | cons v1 rest ih =>
    rw [cleanNullsArrCore] at h
    rcases List.mem_cons.mp h with h2 | h2
    · cases hc : cleanNullsVal keep v1 with
      | some w1 =>
        rw [hc] at h2
        simp only [Option.getD_some] at h2
        subst h2
        exact Or.inr ⟨v1, List.mem_cons_self _ _, hc⟩
      | none =>
        rw [hc] at h2
        simp only [Option.getD_none] at h2
        exact Or.inl h2
    · rcases ih h2 with h3 | ⟨v0, hm, he⟩
      · exact Or.inl h3
      · exact Or.inr ⟨v0, List.mem_cons_of_mem _ hm, he⟩

theorem mem_dropTrailingUndef {xs : List JsValue} {w : JsValue}
    (h : w ∈ dropTrailingUndef xs) : w ∈ xs := by
  rw [dropTrailingUndef, List.mem_reverse] at h
  exact List.mem_reverse.mp ((List.dropWhile_sublist _).mem h)

theorem cleanNullsVal_not_empty {keep : Bool} {v w : JsValue}
    (h : cleanNullsVal keep v = some w) : isEmptyContainer w = false := by
  cases v with
  | vObj fs =>
    rw [cleanNullsVal] at h
    by_cases he : (cleanNullsObj keep fs).isEmpty
    · simp [he] at h
    · simp only [he, if_false, Option.some.injEq, Bool.false_eq_true] at h
      rw [← h]
      simpa [isEmptyContainer] using he
  | vArr xs =>
    rw [cleanNullsVal] at h
    by_cases he : (dropTrailingUndef (cleanNullsArrCore keep xs)).isEmpty
    · simp [he] at h
    · simp only [he, if_false, Option.some.injEq, Bool.false_eq_true] at h
      rw [← h]
      simpa [isEmptyContainer] using he
  | vUndefined => cases keep <;> exact Option.noConfusion h
  | vNull => cases keep <;> exact Option.noConfusion h
  | vBool b =>
    cases keep <;> (injection h with h; rw [← h]; rfl)
  | vNum n =>
    cases keep <;> (injection h with h; rw [← h]; rfl)
  | vStr s =>
    cases keep <;> cases s <;>
      first
        | exact Option.noConfusion h
        | (injection h with h; rw [← h]; rfl)

theorem sizeOf_lt_of_mem_fields {fs : List (List Char × JsValue)} {k : List Char}
    {v : JsValue} (h : (k, v) ∈ fs) : sizeOf v < sizeOf (JsValue.vObj fs) := by
  have h1 := List.sizeOf_lt_of_mem h
  simp only [Prod.mk.sizeOf_spec] at h1
  simp only [JsValue.vObj.sizeOf_spec]
  omega

theorem sizeOf_lt_of_mem_elems {xs : List JsValue} {v : JsValue} (h : v ∈ xs) :
    sizeOf v < sizeOf (JsValue.vArr xs) := by
  have h1 := List.sizeOf_lt_of_mem h
  simp only [JsValue.vArr.sizeOf_spec]
  omega

/-- Every value kept by the sanitizer has no empty container nested inside
it (inner lemma of claim C9, by strong induction on the input value). -/
theorem noEmpty_of_cleanVal (keep : Bool) :
    ∀ (v w : JsValue), cleanNullsVal keep v = some w → noEmptyInside w = true
  | .vObj fs, w, h => by
    rw [cleanNullsVal] at h
    by_cases he : (cleanNullsObj keep fs).isEmpty
    · simp [he] at h
    · simp only [he, if_false, Option.some.injEq, Bool.false_eq_true] at h
      rw [← h, noEmptyInside, noEmptyFields_iff]
      intro kv hkv
      obtain ⟨k0, w0⟩ := kv
      obtain ⟨v0, hmem, hv0⟩ := mem_cleanNullsObj hkv
      exact ⟨cleanNullsVal_not_empty hv0, noEmpty_of_cleanVal keep v0 w0 hv0⟩
  | .vArr xs, w, h => by
    rw [cleanNullsVal] at h
    by_cases he : (dropTrailingUndef (cleanNullsArrCore keep xs)).isEmpty
    · simp [he] at h
    · simp only [he, if_false, Option.some.injEq, Bool.false_eq_true] at h
      rw [← h, noEmptyInside, noEmptyElems_iff]
      intro w0 hw0
      rcases mem_cleanNullsArrCore (mem_dropTrailingUndef hw0) with rfl | ⟨v0, hmem, hv0⟩
      · exact ⟨rfl, rfl⟩
      · exact ⟨cleanNullsVal_not_empty hv0, noEmpty_of_cleanVal keep v0 w0 hv0⟩
  | .vUndefined, w, h => by cases keep <;> exact Option.noConfusion h
  | .vNull, w, h => by cases keep <;> exact Option.noConfusion h
  | .vBool b, w, h => by cases keep <;> (injection h with h; rw [← h]; rfl)
  | .vNum n, w, h => by cases keep <;> (injection h with h; rw [← h]; rfl)
  | .vStr s, w, h => by
    cases keep <;> cases s <;>
      first
        | exact Option.noConfusion h
        | (injection h with h; rw [← h]; rfl)
termination_by v => sizeOf v
decreasing_by
  · exact sizeOf_lt_of_mem_fields hmem
  · exact sizeOf_lt_of_mem_elems hmem

/-- CLAIM C9.  For every input document and both values of
`keepEmptyStrings`, the result of `cleanNulls` contains, at every nesting
depth, no empty plain-object or array value: a container emptied by
sanitizing its children is dropped from its parent. -/
theorem c9_cleanNulls_no_empty_containers (doc : JsValue) (isArray keep : Bool) :
    noEmptyInside (cleanNulls doc isArray keep) = true := by
  cases doc with
  | vObj fs =>
    cases isArray with
    | false =>
      rw [cleanNulls, noEmptyInside, noEmptyFields_iff]
      intro kv hkv
      obtain ⟨k0, w0⟩ := kv
      obtain ⟨v0, hmem, hv0⟩ := mem_cleanNullsObj hkv
      exact ⟨cleanNullsVal_not_empty hv0, noEmpty_of_cleanVal keep v0 w0 hv0⟩
    | true => rfl
  | vArr xs =>
    cases isArray with
    | true =>
      rw [cleanNulls, noEmptyInside, noEmptyElems_iff]
      intro w0 hw0
      rcases mem_cleanNullsArrCore (mem_dropTrailingUndef hw0) with rfl | ⟨v0, hmem, hv0⟩
      · exact ⟨rfl, rfl⟩
      · exact ⟨cleanNullsVal_not_empty hv0, noEmpty_of_cleanVal keep v0 w0 hv0⟩
    | false => rfl
  | vUndefined => cases isArray <;> rfl
  | vNull => cases isArray <;> rfl
  | vBool b => cases isArray <;> rfl
  | vNum n => cases isArray <;> rfl
  | vStr s => cases isArray <;> rfl

/-- The lookahead written the way the specification words it: the match must
be followed by a dot or by the end of the string. -/
def LookaheadSpec (rest : List Char) : Prop :=
  rest = [] ∨ ∃ t, rest = '.' :: t

theorem lookaheadOk_iff (r : List Char) : lookaheadOk r = true ↔ LookaheadSpec r := by
  cases r with
  | nil => simp [lookaheadOk, LookaheadSpec]
  | cons c t =>
    simp only [lookaheadOk, LookaheadSpec, decide_eq_true_eq]
    constructor
    · rintro rfl
      exact Or.inr ⟨t, rfl⟩
    · rintro (h | ⟨t1, h⟩)
      · cases h
      · cases h
        rfl

/-- The tokens the replacement pattern of `makeKeyGeneric` can consume right
after a dot: a non-empty digit run, or `$[` followed by `]`-free characters
and a closing `]`. -/
inductive TokenRun : List Char → Prop where
  | digits (tok : List Char) (hne : tok ≠ []) (hd : ∀ c ∈ tok, c.isDigit = true) :
      TokenRun tok
  | bracketed (mid : List Char) (hm : ']' ∉ mid) :
      TokenRun ('$' :: '[' :: (mid ++ [']']))

theorem tokenRun_ne_nil {tok : List Char} (h : TokenRun tok) : tok ≠ [] := by
  cases h with
  | digits tok hne hd => exact hne
  | bracketed mid hm => simp

theorem matchAfterDot_some_iff (s r : List Char) :
    matchAfterDot s = some r ↔
      ∃ tok, s = tok ++ r ∧ TokenRun tok ∧ LookaheadSpec r := by
  constructor
  · intro h
    unfold matchAfterDot at h
    by_cases he : (s.takeWhile Char.isDigit).isEmpty
    · rw [if_pos he] at h
      split at h
      · rename_i t
        split at h
        · rename_i r1 hdrop
          by_cases hl : lookaheadOk r1
          · rw [if_pos hl] at h
            obtain rfl : r1 = r := by simpa using h
            refine ⟨'$' :: '[' :: (t.takeWhile (fun c => c ≠ ']') ++ [']']), ?_, ?_, ?_⟩
            · have ht := List.takeWhile_append_dropWhile (p := fun c => c ≠ ']') (l := t)
              rw [hdrop] at ht
              conv_lhs => rw [← ht]
              simp
            · refine TokenRun.bracketed _ (fun hmem => ?_)
              have := List.mem_takeWhile_imp hmem
              simp at this
            · exact (lookaheadOk_iff _).mp hl
          · rw [if_neg hl] at h
            cases h
        · cases h
      · cases h
    · rw [if_neg he] at h
      by_cases hl : lookaheadOk (s.dropWhile Char.isDigit)
      · rw [if_pos hl] at h
        obtain rfl : s.dropWhile Char.isDigit = r := by simpa using h
        refine ⟨s.takeWhile Char.isDigit, ?_, ?_, (lookaheadOk_iff _).mp hl⟩
        · rw [List.takeWhile_append_dropWhile]
        · exact TokenRun.digits _ (by simpa using he) (fun c hc => List.mem_takeWhile_imp hc)
      · rw [if_neg hl] at h
        cases h
  · rintro ⟨tok, rfl, ht, hl⟩
    cases ht with
    | digits tok hne hd =>
      have htw : (tok ++ r).takeWhile Char.isDigit = tok ++ r.takeWhile Char.isDigit :=
        List.takeWhile_append_of_pos hd
      have hrw : r.takeWhile Char.isDigit = [] := by
        rcases hl with rfl | ⟨t, rfl⟩
        · rfl
        · rw [List.takeWhile_cons_of_neg]
          decide
      have hdw : (tok ++ r).dropWhile Char.isDigit = r := by
        rw [List.dropWhile_append_of_pos hd]
        rcases hl with rfl | ⟨t, rfl⟩
        · rfl
        · rw [List.dropWhile_cons_of_neg]
          decide
      unfold matchAfterDot
      rw [htw, hrw, List.append_nil, if_neg (by simpa using hne), hdw,
        if_pos ((lookaheadOk_iff r).mpr hl)]
    | bracketed mid hm =>
      have hs : ('$' :: '[' :: (mid ++ [']'])) ++ r = '$' :: '[' :: (mid ++ ']' :: r) := by
        simp
      rw [hs]
      unfold matchAfterDot
      have he : (('$' :: '[' :: (mid ++ ']' :: r)).takeWhile Char.isDigit).isEmpty := by
        rw [List.takeWhile_cons_of_neg (by decide)]
        rfl
      rw [if_pos he]
      have hmid : ∀ c ∈ mid, (fun c => decide (c ≠ ']')) c = true := by
        intro c hc
        simp only [decide_eq_true_eq]
        exact fun e => hm (e ▸ hc)
      have hdw : (mid ++ ']' :: r).dropWhile (fun c => c ≠ ']') = ']' :: r := by
        rw [List.dropWhile_append_of_pos hmid, List.dropWhile_cons_of_neg (by simp)]
      show (match (mid ++ ']' :: r).dropWhile (fun c => c ≠ ']') with
        | ']' :: r2 => if lookaheadOk r2 then some r2 else none
        | _ => none) = some r
      rw [hdw]
      show (if lookaheadOk r then some r else none) = some r
      rw [if_pos ((lookaheadOk_iff r).mpr hl)]

theorem matchAfterDot_none_iff (s : List Char) :
    matchAfterDot s = none ↔
      ∀ tok r, s = tok ++ r → TokenRun tok → LookaheadSpec r → False := by
  constructor
  · intro h tok r hs ht hl
    have h2 := (matchAfterDot_some_iff s r).mpr ⟨tok, hs, ht, hl⟩
    rw [h] at h2
    cases h2
  · intro h
    cases hm : matchAfterDot s with
    | none => rfl
    | some r =>
      obtain ⟨tok, hs, ht, hl⟩ := (matchAfterDot_some_iff s r).mp hm
      exact (h tok r hs ht hl).elim

theorem matchAfterDot_length {s r : List Char} (h : matchAfterDot s = some r) :
    r.length < s.length := by
  obtain ⟨tok, rfl, ht, -⟩ := (matchAfterDot_some_iff s r).mp h
  have := tokenRun_ne_nil ht
  rw [List.length_append]
  cases tok with
  | nil => exact absurd rfl this
  | cons c t => simp

theorem matchAfterDot_drop {s r : List Char} (h : matchAfterDot s = some r) :
    s.drop (s.length - r.length) = r := by
  obtain ⟨tok, rfl, -, -⟩ := (matchAfterDot_some_iff s r).mp h
  rw [List.length_append, Nat.add_sub_cancel, List.drop_left]

theorem matchAfterDot_suffix_mem {s r : List Char} (h : matchAfterDot s = some r) :
    ∀ x ∈ r, x ∈ s := by
  obtain ⟨tok, rfl, -, -⟩ := (matchAfterDot_some_iff s r).mp h
  intro x hx
  exact List.mem_append_right _ hx

theorem out2_skip (n : Nat) (t : List Char) : out2 n t = out2 0 (t.drop n) := by
  induction t generalizing n with
  | nil => cases n <;> rfl
  | cons c t ih =>
    cases n with
    | zero => rfl
    | succ m =>
      show out2 m t = _
      rw [ih m, List.drop_succ_cons]

theorem makeKeyGenericCore_cons (c : Char) (t : List Char) :
    makeKeyGenericCore (c :: t) =
      if c = '.' then
        match matchAfterDot t with
        | some r => '.' :: '$' :: makeKeyGenericCore r
        | none => '.' :: makeKeyGenericCore t
      else c :: makeKeyGenericCore t := by
  by_cases hc : c = '.'
  · rw [if_pos hc]
    subst hc
    show (if ('.' : Char) = '.' then
        match matchAfterDot t with
        | some r => '.' :: '$' :: out2 (t.length - r.length) t
        | none => '.' :: out2 0 t
      else '.' :: out2 0 t) = _
    rw [if_pos (rfl : ('.' : Char) = '.')]
    cases hm : matchAfterDot t with
    | none => rfl
    | some r =>
      show '.' :: '$' :: out2 (t.length - r.length) t = _
      rw [out2_skip, matchAfterDot_drop hm]
      rfl
  · rw [if_neg hc]
    show (if c = '.' then
        match matchAfterDot t with
        | some r => '.' :: '$' :: out2 (t.length - r.length) t
        | none => '.' :: out2 0 t
      else c :: out2 0 t) = _
    rw [if_neg hc]
    rfl

theorem makeKeyGenericCore_cons_ne {c : Char} (t : List Char) (hc : c ≠ '.') :
    makeKeyGenericCore (c :: t) = c :: makeKeyGenericCore t := by
  rw [makeKeyGenericCore_cons, if_neg hc]

theorem makeKeyGenericCore_dot_some {t r : List Char} (hm : matchAfterDot t = some r) :
    makeKeyGenericCore ('.' :: t) = '.' :: '$' :: makeKeyGenericCore r := by
  rw [makeKeyGenericCore_cons, if_pos rfl, hm]

theorem makeKeyGenericCore_dot_none {t : List Char} (hm : matchAfterDot t = none) :
    makeKeyGenericCore ('.' :: t) = '.' :: makeKeyGenericCore t := by
  rw [makeKeyGenericCore_cons, if_pos rfl, hm]

theorem makeKeyGenericCore_cons_shape (c : Char) (t : List Char) :
    ∃ u, makeKeyGenericCore (c :: t) = c :: u := by
  by_cases hc : c = '.'
  · subst hc
    cases hm : matchAfterDot t with
    | some r => exact ⟨'$' :: makeKeyGenericCore r, makeKeyGenericCore_dot_some hm⟩
    | none => exact ⟨makeKeyGenericCore t, makeKeyGenericCore_dot_none hm⟩
  · exact ⟨makeKeyGenericCore t, makeKeyGenericCore_cons_ne t hc⟩

theorem mem_makeKeyGenericCore :
    ∀ (s : List Char) (x : Char), x ∈ makeKeyGenericCore s → x ∈ s ∨ x = '.' ∨ x = '$'
  | [], x, h => by cases h
  | c :: t, x, h => by
    by_cases hc : c = '.'
    · subst hc
      cases hm : matchAfterDot t with
      | some r =>
        rw [makeKeyGenericCore_dot_some hm] at h
        rcases List.mem_cons.mp h with rfl | h2
        · exact Or.inr (Or.inl rfl)
        · rcases List.mem_cons.mp h2 with rfl | h3
          · exact Or.inr (Or.inr rfl)
          · rcases mem_makeKeyGenericCore r x h3 with h4 | h4
            · exact Or.inl (List.mem_cons_of_mem _ (matchAfterDot_suffix_mem hm x h4))
            · exact Or.inr h4
      | none =>
        rw [makeKeyGenericCore_dot_none hm] at h
        rcases List.mem_cons.mp h with rfl | h2
        · exact Or.inl (List.mem_cons_self _ _)
        · rcases mem_makeKeyGenericCore t x h2 with h3 | h3
          · exact Or.inl (List.mem_cons_of_mem _ h3)
          · exact Or.inr h3
    · rw [makeKeyGenericCore_cons_ne t hc] at h
      rcases List.mem_cons.mp h with rfl | h2
      · exact Or.inl (List.mem_cons_self _ _)
      · rcases mem_makeKeyGenericCore t x h2 with h3 | h3
        · exact Or.inl (List.mem_cons_of_mem _ h3)
        · exact Or.inr h3
termination_by s => s.length
decreasing_by
  all_goals
    first
      | (have hlt := matchAfterDot_length hm
         simp only [List.length_cons]
         omega)
      | (simp only [List.length_cons]
         omega)

theorem makeKeyGenericCore_append_no_dot :
    ∀ (p t : List Char), (∀ c ∈ p, c ≠ '.') →
      makeKeyGenericCore (p ++ t) = p ++ makeKeyGenericCore t
  | [], t, _ => rfl
  | c :: p, t, h => by
    rw [List.cons_append,
      makeKeyGenericCore_cons_ne _ (h c (List.mem_cons_self _ _)),
      makeKeyGenericCore_append_no_dot p t (fun c hc => h c (List.mem_cons_of_mem _ hc))]
    rfl

/-- Specification-side description of the global replacement performed by
`makeKeyGeneric` on a string: scanning left to right, every run consisting
of a dot, then either one-or-more digits or a `$[...]` bracketed token,
followed by a dot or end-of-string, is replaced by `.$` (the lookahead
character is not consumed, so adjacent array levels are all replaced); a
character at which no such run starts is copied unchanged. -/
inductive ReplacesRuns : List Char → List Char → Prop where
  | nil : ReplacesRuns [] []
  | run (tok rest res : List Char) (ht : TokenRun tok) (hl : LookaheadSpec rest)
      (hr : ReplacesRuns rest res) :
      ReplacesRuns ('.' :: (tok ++ rest)) ('.' :: '$' :: res)
  | keep (c : Char) (s res : List Char)
      (hnm : ∀ tok rest, c :: s = '.' :: (tok ++ rest) → TokenRun tok →
        LookaheadSpec rest → False)
      (hr : ReplacesRuns s res) :
      ReplacesRuns (c :: s) (c :: res)

theorem replacesRuns_makeKeyGenericCore :
    ∀ s : List Char, ReplacesRuns s (makeKeyGenericCore s)
  | [] => ReplacesRuns.nil
  | c :: t => by
    by_cases hc : c = '.'
    · subst hc
      cases hm : matchAfterDot t with
      | some r =>
        obtain ⟨tok, hteq, ht, hl⟩ := (matchAfterDot_some_iff t r).mp hm
        rw [makeKeyGenericCore_dot_some hm, hteq]
        exact ReplacesRuns.run tok r _ ht hl (replacesRuns_makeKeyGenericCore r)
      | none =>
        rw [makeKeyGenericCore_dot_none hm]
        refine ReplacesRuns.keep '.' t _ ?_ (replacesRuns_makeKeyGenericCore t)
        intro tok rest heq ht hl
        have heq2 : t = tok ++ rest := by injection heq
        exact (matchAfterDot_none_iff t).mp hm tok rest heq2 ht hl
    · rw [makeKeyGenericCore_cons_ne t hc]
      refine ReplacesRuns.keep c t _ ?_ (replacesRuns_makeKeyGenericCore t)
      intro tok rest heq ht hl
      injection heq with h1 h2
      exact hc h1
termination_by s => s.length
decreasing_by
  all_goals
    first
      | (have hlt := matchAfterDot_length hm
         simp only [List.length_cons]
         omega)
      | (simp only [List.length_cons]
         omega)

/-- CLAIM C5.  `makeKeyGeneric` returns `null` for every non-string input;
on a string it performs the left-to-right replacement of every run "dot,
then one-or-more digits or a `$[...]` token, followed by dot or end" with
`.$` (captured by `ReplacesRuns`), handling multiple occurrences and
adjacent array levels, so that `makeKeyGeneric("a.0.1.b") = "a.$.$.b"`. -/
theorem c5_makeKeyGeneric_characterisation :
    (∀ v : JsValue, (∀ s, v ≠ .vStr s) → makeKeyGeneric v = .vNull) ∧
    (∀ s : List Char, ReplacesRuns s (makeKeyGenericCore s)) ∧
    makeKeyGeneric (.vStr ['a', '.', '0', '.', '1', '.', 'b'])
      = .vStr ['a', '.', '$', '.', '$', '.', 'b'] := by
  refine ⟨?_, replacesRuns_makeKeyGenericCore, rfl⟩
  intro v hv
  cases v with
  | vStr s2 => exact absurd rfl (hv s2)
  | vUndefined => rfl
  | vNull => rfl
  | vBool b => rfl
  | vNum n => rfl
  | vArr xs => rfl
  | vObj fs => rfl

/-- Witness for claim C5: the hypothesis of the first conjunct discharged at
the concrete non-string input `3`. -/
theorem c5_makeKeyGeneric_characterisation_witness :
    makeKeyGeneric (.vNum 3) = .vNull :=
  c5_makeKeyGeneric_characterisation.1 (.vNum 3) (fun _ h => JsValue.noConfusion h)

/-- An array-index segment of a dotted key path: one or more digits. -/
def isIndexSeg (seg : List Char) : Bool :=
  !seg.isEmpty && seg.all Char.isDigit

/-- Helper for `isPosSeg`: the characters after `$[`, which must be a
`]`-free identifier followed by the closing `]`. -/
def posTail : List Char → Bool
  | [] => false
  | [c] => c = ']'
  | c :: rest => c ≠ ']' && posTail rest

/-- A positional-operator segment of the form `$[identifier]`. -/
def isPosSeg : List Char → Bool
  | '$' :: '[' :: rest => posTail rest
  | _ => false

theorem posTail_iff : ∀ rest : List Char,
    posTail rest = true ↔ ∃ mid, rest = mid ++ [']'] ∧ ']' ∉ mid
  | [] => by
    constructor
    · intro h
      cases h
    · rintro ⟨mid, h, -⟩
      exact absurd h.symm (by simp)
  | [c] => by
    constructor
    · intro h
      have hc : c = ']' := by simpa [posTail] using h
      exact ⟨[], by rw [hc]; rfl, by simp⟩
    · rintro ⟨mid, h, -⟩
      cases mid with
      | nil =>
        injection h with h1 h2
        simp [posTail, h1]
      | cons x mid2 =>
        injection h with h1 h2
        exact absurd h2.symm (by simp)
  | c :: d :: rest => by
    rw [show posTail (c :: d :: rest) = (decide (c ≠ ']') && posTail (d :: rest)) from rfl,
      Bool.and_eq_true, decide_eq_true_eq, posTail_iff (d :: rest)]
    constructor
    · rintro ⟨hc, mid2, heq, hm⟩
      refine ⟨c :: mid2, by rw [List.cons_append, ← heq], ?_⟩
      intro hmem
      rcases List.mem_cons.mp hmem with h1 | h1
      · exact hc h1.symm
      · exact hm h1
    · rintro ⟨mid, heq, hm⟩
      cases mid with
      | nil =>
        injection heq with h1 h2
        exact (List.cons_ne_nil _ _ h2).elim
      | cons x mid2 =>
        injection heq with h1 h2
        subst h1
        exact ⟨fun e => hm (by rw [e]; exact List.mem_cons_self _ _),
          mid2, h2, fun hmem => hm (List.mem_cons_of_mem _ hmem)⟩

theorem isPosSeg_elim {seg : List Char} (h : isPosSeg seg = true) :
    ∃ mid, seg = '$' :: '[' :: (mid ++ [']']) ∧ ']' ∉ mid := by
  unfold isPosSeg at h
  split at h
  · obtain ⟨mid, hrest, hm⟩ := (posTail_iff _).mp h
    exact ⟨mid, by rw [hrest], hm⟩
  · cases h

theorem isPosSeg_intro {mid : List Char} (hm : ']' ∉ mid) :
    isPosSeg ('$' :: '[' :: (mid ++ [']'])) = true := by
  show posTail (mid ++ [']']) = true
  exact (posTail_iff _).mpr ⟨mid, rfl, hm⟩

/-- A well-formed segment of a dotted specific key path: non-empty, free of
the path delimiter, and either a positional-operator segment or free of
bracket characters (the specification declares property names containing
the delimiter or bracket characters out of scope). -/
def wfSeg (seg : List Char) : Bool :=
  !seg.isEmpty && seg.all (fun c => c ≠ '.') &&
    (isPosSeg seg || (!seg.contains '[' && !seg.contains ']'))

/-- The segment replacement described by the specification: array-index
segments and positional-operator segments become the token `$`, all other
segments are unchanged. -/
def replSeg (seg : List Char) : List Char :=
  if isIndexSeg seg || isPosSeg seg then ['$'] else seg

/-- Joins segments each preceded by a dot (the shape of the tail of a
dotted path after its first segment). -/
def dotPrefixed : List (List Char) → List Char
  | [] => []
  | s :: rest => '.' :: (s ++ dotPrefixed rest)

theorem wfSeg_ne_nil {s : List Char} (h : wfSeg s = true) : s ≠ [] := by
  rcases Bool.and_eq_true_iff.mp h with ⟨h1, -⟩
  rcases Bool.and_eq_true_iff.mp h1 with ⟨h2, -⟩
  simpa using h2

theorem wfSeg_no_dot {s : List Char} (h : wfSeg s = true) : ∀ c ∈ s, c ≠ '.' := by
  rcases Bool.and_eq_true_iff.mp h with ⟨h1, -⟩
  rcases Bool.and_eq_true_iff.mp h1 with ⟨-, h2⟩
  intro c hc
  have := List.all_eq_true.mp h2 c hc
  simpa using this

theorem wfSeg_brackets {s : List Char} (h : wfSeg s = true) :
    isPosSeg s = true ∨ ('[' ∉ s ∧ ']' ∉ s) := by
  rcases Bool.and_eq_true_iff.mp h with ⟨-, h1⟩
  rcases Bool.or_eq_true_iff.mp h1 with h2 | h2
  · exact Or.inl h2
  · rcases Bool.and_eq_true_iff.mp h2 with ⟨h3, h4⟩
    rw [Bool.not_eq_true', List.contains_eq_any_beq] at h3 h4
    refine Or.inr ⟨fun hm => ?_, fun hm => ?_⟩
    · rw [List.any_eq_false] at h3
      exact absurd (by simp : ((('[' : Char) == '[') = true)) (by simpa using h3 _ hm)
    · rw [List.any_eq_false] at h4
      exact absurd (by simp : (((']' : Char) == ']') = true)) (by simpa using h4 _ hm)

theorem lookaheadSpec_dotPrefixed (segs : List (List Char)) :
    LookaheadSpec (dotPrefixed segs) := by
  cases segs with
  | nil => exact Or.inl rfl
  | cons s rest => exact Or.inr ⟨s ++ dotPrefixed rest, rfl⟩

theorem matchAfterDot_indexSeg {s T : List Char} (hidx : isIndexSeg s = true)
    (hT : LookaheadSpec T) : matchAfterDot (s ++ T) = some T := by
  rcases Bool.and_eq_true_iff.mp hidx with ⟨h1, h2⟩
  refine (matchAfterDot_some_iff _ _).mpr ⟨s, rfl, ?_, hT⟩
  exact TokenRun.digits s (by simpa using h1) (fun c hc => List.all_eq_true.mp h2 c hc)

theorem matchAfterDot_posSeg {s T : List Char} (hpos : isPosSeg s = true)
    (hT : LookaheadSpec T) : matchAfterDot (s ++ T) = some T := by
  obtain ⟨mid, rfl, hm⟩ := isPosSeg_elim hpos
  exact (matchAfterDot_some_iff _ _).mpr ⟨_, rfl, TokenRun.bracketed mid hm, hT⟩

theorem matchAfterDot_plainSeg {s T : List Char} (hwf : wfSeg s = true)
    (hidx : isIndexSeg s = false) (hpos : isPosSeg s = false)
    (hT : LookaheadSpec T) : matchAfterDot (s ++ T) = none := by
  have hne := wfSeg_ne_nil hwf
  have hnd := wfSeg_no_dot hwf
  rw [matchAfterDot_none_iff]
  intro tok r2 heq ht hl2
  cases ht with
  | digits tok hne2 hd =>
    rcases List.append_eq_append_iff.mp heq with ⟨a, h1, h2⟩ | ⟨a, h1, h2⟩
    · cases a with
      | nil =>
        rw [List.append_nil] at h1
        have : isIndexSeg s = true := by
          rw [isIndexSeg, Bool.and_eq_true]
          refine ⟨by simpa using hne, List.all_eq_true.mpr (fun c hc => hd c ?_)⟩
          rw [h1]
          exact hc
        rw [hidx] at this
        cases this
      | cons x a2 =>
        have hx : x ∈ tok := by
          rw [h1]
          exact List.mem_append_right _ (List.mem_cons_self _ _)
        have hxd := hd x hx
        rcases hT with hT | ⟨t, hT⟩
        · rw [hT] at h2
          cases h2
        · rw [hT] at h2
          injection h2 with h3 h4
          rw [← h3] at hxd
          cases hxd
    · cases a with
      | nil =>
        rw [List.append_nil] at h1
        have : isIndexSeg s = true := by
          rw [isIndexSeg, Bool.and_eq_true]
          refine ⟨by simpa using hne, List.all_eq_true.mpr (fun c hc => hd c ?_)⟩
          rw [← h1]
          exact hc
        rw [hidx] at this
        cases this
      | cons x a2 =>
        have hx : x ∈ s := by
          rw [h1]
          exact List.mem_append_right _ (List.mem_cons_self _ _)
        rcases hl2 with hl2 | ⟨t, hl2⟩
        · rw [hl2] at h2
          cases h2
        · rw [hl2] at h2
          injection h2 with h3 h4
          exact hnd x hx h3.symm
  | bracketed mid hm =>
    have hlb : '[' ∉ s ∧ ']' ∉ s := by
      rcases wfSeg_brackets hwf with h | h
      · rw [hpos] at h
        cases h
      · exact h
    rcases List.append_eq_append_iff.mp heq with ⟨a, h1, h2⟩ | ⟨a, h1, h2⟩
    · cases a with
      | nil =>
        rw [List.append_nil] at h1
        exact hlb.1 (by
          rw [← h1]
          exact List.mem_cons_of_mem _ (List.mem_cons_self _ _))
      | cons x a2 =>
        have hx : x = '.' := by
          rcases hT with hT | ⟨t, hT⟩
          · rw [hT] at h2
            cases h2
          · rw [hT] at h2
            injection h2 with h3 h4
            exact h3.symm
        subst hx
        cases s with
        | nil => exact hne rfl
        | cons c1 s2 =>
          cases s2 with
          | nil =>
            rw [List.cons_append, List.nil_append] at h1
            injection h1 with h3 h4
            injection h4 with h5 h6
            cases h5
          | cons c2 s3 =>
            rw [List.cons_append, List.cons_append] at h1
            injection h1 with h3 h4
            injection h4 with h5 h6
            exact hlb.1 (by
              rw [h5]
              exact List.mem_cons_of_mem _ (List.mem_cons_self _ _))
    · exact hlb.1 (by
        rw [h1]
        exact List.mem_append_left _ (List.mem_cons_of_mem _ (List.mem_cons_self _ _)))

theorem makeKeyGenericCore_dotPrefixed :
    ∀ segs : List (List Char), (∀ s ∈ segs, wfSeg s = true) →
      makeKeyGenericCore (dotPrefixed segs) = dotPrefixed (segs.map replSeg)
  | [], _ => rfl
  | s :: rest, h => by
    have hs := h s (List.mem_cons_self _ _)
    have hrest : ∀ t ∈ rest, wfSeg t = true := fun t ht => h t (List.mem_cons_of_mem _ ht)
    rw [show dotPrefixed (s :: rest) = '.' :: (s ++ dotPrefixed rest) from rfl]
    by_cases hrepl : (isIndexSeg s || isPosSeg s) = true
    · have hmatch : matchAfterDot (s ++ dotPrefixed rest) = some (dotPrefixed rest) := by
        rcases Bool.or_eq_true_iff.mp hrepl with hidx | hpos
        · exact matchAfterDot_indexSeg hidx (lookaheadSpec_dotPrefixed rest)
        · exact matchAfterDot_posSeg hpos (lookaheadSpec_dotPrefixed rest)
      rw [makeKeyGenericCore_dot_some hmatch,
        makeKeyGenericCore_dotPrefixed rest hrest,
        List.map_cons,
        show dotPrefixed (replSeg s :: rest.map replSeg)
          = '.' :: (replSeg s ++ dotPrefixed (rest.map replSeg)) from rfl,
        replSeg, if_pos hrepl]
      rfl
    · have hidx : isIndexSeg s = false := by
        cases hx : isIndexSeg s
        · rfl
        · exact absurd (by rw [hx]; rfl) hrepl
      have hpos : isPosSeg s = false := by
        cases hx : isPosSeg s
        · rfl
        · exact absurd (by rw [hx, Bool.or_true]) hrepl
      have hmatch : matchAfterDot (s ++ dotPrefixed rest) = none :=
        matchAfterDot_plainSeg hs hidx hpos (lookaheadSpec_dotPrefixed rest)
      rw [makeKeyGenericCore_dot_none hmatch,
        makeKeyGenericCore_append_no_dot s _ (wfSeg_no_dot hs),
        makeKeyGenericCore_dotPrefixed rest hrest,
        List.map_cons,
        show dotPrefixed (replSeg s :: rest.map replSeg)
          = '.' :: (replSeg s ++ dotPrefixed (rest.map replSeg)) from rfl,
        replSeg, if_neg (by simp [hidx, hpos])]

/-- CLAIM C6 — counterexample.  The claim includes a first-position
array-index segment among the segments replaced by `$`, but the regex of
`makeKeyGeneric` requires a dot before the token: on the well-formed path
`0.a` (segments `0` and `a`) the code returns `0.a` unchanged, not the
`$.a` the claim predicts. -/
theorem c6_generic_path_counterexample :
    wfSeg ['0'] = true ∧ wfSeg ['a'] = true ∧
    makeKeyGenericCore (['0'] ++ dotPrefixed [['a']])
      ≠ replSeg ['0'] ++ dotPrefixed (List.map replSeg [['a']]) := by
  decide

/-- CLAIM C6 — amended.  For every well-formed dotted specific key path,
`makeKeyGeneric` replaces every array-index segment (digits only) and every
positional-operator segment `$[identifier]` by the literal token `$` —
except a segment in the first position, which has no preceding dot and is
left unchanged — while all other segments are unchanged. -/
theorem c6_generic_path_segmentwise (s0 : List Char) (rest : List (List Char))
    (h0 : wfSeg s0 = true) (hr : ∀ s ∈ rest, wfSeg s = true) :
    makeKeyGenericCore (s0 ++ dotPrefixed rest)
      = s0 ++ dotPrefixed (rest.map replSeg) := by
  rw [makeKeyGenericCore_append_no_dot s0 _ (wfSeg_no_dot h0),
    makeKeyGenericCore_dotPrefixed rest hr]

/-- Witness for claim C6: the amended statement applied to the concrete
path `a.0.$[x].b`, whose generic form is `a.$.$.b`. -/
theorem c6_generic_path_segmentwise_witness :
    wfSeg ['a'] = true ∧
    (∀ s ∈ [['0'], ['$', '[', 'x', ']'], ['b']], wfSeg s = true) ∧
    makeKeyGenericCore (['a'] ++ dotPrefixed [['0'], ['$', '[', 'x', ']'], ['b']])
      = ['a'] ++ dotPrefixed (List.map replSeg [['0'], ['$', '[', 'x', ']'], ['b']]) :=
  ⟨by decide, by decide,
    c6_generic_path_segmentwise ['a'] [['0'], ['$', '[', 'x', ']'], ['b']]
      (by decide) (by decide)⟩

theorem lookaheadOk_false_shape {r : List Char} (h : lookaheadOk r = false) :
    ∃ rh rt, r = rh :: rt ∧ rh ≠ '.' := by
  cases r with
  | nil => cases h
  | cons rh rt =>
    refine ⟨rh, rt, rfl, fun e => ?_⟩
    rw [show lookaheadOk (rh :: rt) = decide (rh = '.') from rfl, e] at h
    simp at h

/-- A token match attempted inside the `]`-free interior of a bracket
cannot consume the closing `]`: the consumed token stays inside the
interior.  (A digit run contains no `]`; a `$[...]` token could only use
the closing `]` as its own closing bracket, and then its lookahead would
have to accept the continuation `r`, which fails.) -/
theorem token_no_cross {inner r tok r2 : List Char}
    (_hni : ']' ∉ inner) (hr : lookaheadOk r = false)
    (heq : inner ++ ']' :: r = tok ++ r2) (ht : TokenRun tok) (hl : LookaheadSpec r2) :
    ∃ a, inner = tok ++ a ∧ r2 = a ++ ']' :: r := by
  rcases List.append_eq_append_iff.mp heq with ⟨a, h1, h2⟩ | ⟨a, h1, h2⟩
  · cases a with
    | nil =>
      rw [List.append_nil] at h1
      rw [List.nil_append] at h2
      rw [← h2] at hl
      rcases hl with hl | ⟨t2, hl⟩
      · cases hl
      · injection hl with h3 h4
        cases h3
    | cons x a2 =>
      rw [List.cons_append] at h2
      injection h2 with h3 h4
      cases ht with
      | digits tok hne hd =>
        have hx : x ∈ tok := by
          rw [h1]
          exact List.mem_append_right _ (List.mem_cons_self _ _)
        have hxd := hd x hx
        rw [← h3] at hxd
        cases hxd
      | bracketed mid hmm =>
        have hX : ']' ∉ ('$' :: '[' :: mid) := by
          intro hmem
          rcases List.mem_cons.mp hmem with h5 | h5
          · cases h5
          · rcases List.mem_cons.mp h5 with h6 | h6
            · cases h6
            · exact hmm h6
        have h1b : ('$' :: '[' :: mid) ++ [']'] = inner ++ ']' :: a2 := by
          rw [← h3] at h1
          rw [← h1]
          rfl
        have ha2 : a2 = [] := by
          rcases List.append_eq_append_iff.mp h1b with ⟨b, hb1, hb2⟩ | ⟨b, hb1, hb2⟩
          · cases b with
            | nil =>
              rw [List.nil_append] at hb2
              simpa using hb2.symm
            | cons y b2 =>
              rw [List.cons_append] at hb2
              injection hb2 with h5 h6
              exact absurd h6.symm (by simp)
          · cases b with
            | nil =>
              rw [List.nil_append] at hb2
              simpa using hb2
            | cons y b2 =>
              rw [List.cons_append] at hb2
              injection hb2 with h5 h6
              refine absurd ?_ hX
              rw [hb1]
              refine List.mem_append_right _ ?_
              rw [h5]
              exact List.mem_cons_self _ _
        rw [ha2, List.nil_append] at h4
        rw [h4] at hr
        rw [(lookaheadOk_iff r2).mpr hl] at hr
        cases hr
  · exact ⟨a, h1, h2⟩

theorem matchAfterDot_digits_fail {D : List Char} {rh : Char} {rt : List Char}
    (hD : D ≠ []) (hDd : ∀ c ∈ D, Char.isDigit c = true)
    (hrh : rh ≠ '.') (hrhd : rh.isDigit = false) :
    matchAfterDot (D ++ rh :: rt) = none := by
  unfold matchAfterDot
  have h1 : (D ++ rh :: rt).takeWhile Char.isDigit = D := by
    rw [List.takeWhile_append_of_pos hDd, List.takeWhile_cons_of_neg (by simp [hrhd]),
      List.append_nil]
  have h2 : (D ++ rh :: rt).dropWhile Char.isDigit = rh :: rt := by
    rw [List.dropWhile_append_of_pos hDd, List.dropWhile_cons_of_neg (by simp [hrhd])]
  rw [h1, h2, if_neg (by simpa [List.isEmpty_iff] using hD),
    if_neg (by simp [lookaheadOk, hrh])]

theorem matchAfterDot_nonspecial {c : Char} {u : List Char}
    (h1 : c.isDigit = false) (h2 : c ≠ '$') : matchAfterDot (c :: u) = none := by
  unfold matchAfterDot
  rw [List.takeWhile_cons_of_neg (by simp [h1]), if_pos (show (List.isEmpty ([] : List Char)) = true from rfl)]
  split
  · rename_i t heq
    injection heq with hca hcb
    exact absurd hca h2
  · rfl

theorem matchAfterDot_dollar_not_bracket {x : Char} {u : List Char} (hx : x ≠ '[') :
    matchAfterDot ('$' :: x :: u) = none := by
  unfold matchAfterDot
  rw [List.takeWhile_cons_of_neg (by decide), if_pos (show (List.isEmpty ([] : List Char)) = true from rfl)]
  split
  · rename_i t heq
    injection heq with hca hcb
    injection hcb with hcc hcd
    exact absurd hcc hx
  · rfl

theorem matchAfterDot_no_close {X : List Char} (hX : ∀ c ∈ X, c ≠ ']') :
    matchAfterDot ('$' :: '[' :: X) = none := by
  unfold matchAfterDot
  rw [List.takeWhile_cons_of_neg (by decide), if_pos (show (List.isEmpty ([] : List Char)) = true from rfl)]
  have hdw : X.dropWhile (fun c => c ≠ ']') = [] := by
    conv_lhs => rw [← List.append_nil X]
    rw [List.dropWhile_append_of_pos (fun c hc => by simpa using hX c hc)]
    rfl
  show (match X.dropWhile (fun c => c ≠ ']') with
    | ']' :: r2 => if lookaheadOk r2 then some r2 else none
    | _ => none) = none
  rw [hdw]

theorem matchAfterDot_bracket_fail {oi rt : List Char} {rh : Char}
    (hoi : ']' ∉ oi) (hrh : rh ≠ '.') :
    matchAfterDot ('$' :: '[' :: (oi ++ ']' :: rh :: rt)) = none := by
  unfold matchAfterDot
  rw [List.takeWhile_cons_of_neg (by decide), if_pos (show (List.isEmpty ([] : List Char)) = true from rfl)]
  have hdw : (oi ++ ']' :: rh :: rt).dropWhile (fun c => c ≠ ']') = ']' :: rh :: rt := by
    rw [List.dropWhile_append_of_pos (fun c hc => by
        simp only [decide_eq_true_eq]
        exact fun e => hoi (e ▸ hc)),
      List.dropWhile_cons_of_neg (by simp)]
  show (match (oi ++ ']' :: rh :: rt).dropWhile (fun c => c ≠ ']') with
    | ']' :: r2 => if lookaheadOk r2 then some r2 else none
    | _ => none) = none
  rw [hdw]
  show (if lookaheadOk (rh :: rt) then some (rh :: rt) else none) = none
  rw [if_neg (by simp [lookaheadOk, hrh])]

/-- Scanning the `]`-free interior of an unmatched bracket: when the
continuation after the closing `]` fails the lookahead, no replacement run
can consume that `]`, so the scan output still contains it, preceded only
by characters that are not `]`. -/
theorem makeKeyGenericCore_bracket_interior :
    ∀ (inner r : List Char), ']' ∉ inner → lookaheadOk r = false →
      ∃ oi, makeKeyGenericCore (inner ++ ']' :: r) = oi ++ ']' :: makeKeyGenericCore r ∧
        ']' ∉ oi
  | [], _, _, _ => by
    refine ⟨[], ?_, by simp⟩
    rw [List.nil_append, List.nil_append, makeKeyGenericCore_cons_ne _ (by decide)]
  | c :: inner, r, hni, hr => by
    have hni2 : ']' ∉ inner := fun h => hni (List.mem_cons_of_mem _ h)
    have hcne : c ≠ ']' := fun h => hni (h ▸ List.mem_cons_self _ _)
    by_cases hc : c = '.'
    · subst hc
      rw [List.cons_append]
      cases hm : matchAfterDot (inner ++ ']' :: r) with
      | some r2 =>
        obtain ⟨tok, heq, ht, hl⟩ := (matchAfterDot_some_iff _ _).mp hm
        obtain ⟨a, ha1, ha2⟩ := token_no_cross hni2 hr heq ht hl
        have hna : ']' ∉ a := fun h => hni2 (ha1 ▸ List.mem_append_right _ h)
        obtain ⟨oi2, hoi2, hoi2n⟩ := makeKeyGenericCore_bracket_interior a r hna hr
        rw [makeKeyGenericCore_dot_some hm, ha2, hoi2]
        refine ⟨'.' :: '$' :: oi2, rfl, ?_⟩
        intro h
        rcases List.mem_cons.mp h with h5 | h5
        · cases h5
        · rcases List.mem_cons.mp h5 with h6 | h6
          · cases h6
          · exact hoi2n h6
      | none =>
        obtain ⟨oi2, hoi2, hoi2n⟩ := makeKeyGenericCore_bracket_interior inner r hni2 hr
        rw [makeKeyGenericCore_dot_none hm, hoi2]
        refine ⟨'.' :: oi2, rfl, ?_⟩
        intro h
        rcases List.mem_cons.mp h with h5 | h5
        · cases h5
        · exact hoi2n h5
    · rw [List.cons_append, makeKeyGenericCore_cons_ne _ hc]
      obtain ⟨oi2, hoi2, hoi2n⟩ := makeKeyGenericCore_bracket_interior inner r hni2 hr
      rw [hoi2]
      refine ⟨c :: oi2, rfl, ?_⟩
      intro h
      rcases List.mem_cons.mp h with h5 | h5
      · exact hcne h5.symm
      · exact hoi2n h5
termination_by inner _ => inner.length
decreasing_by
  all_goals
    first
      | (have hlen := congrArg List.length ha1
         rw [List.length_append] at hlen
         simp only [List.length_cons]
         omega)
      | (simp only [List.length_cons]
         omega)

/-- Crux of idempotence: the scan output of an input at which the pattern
does not match still fails to match.  Replacements only ever emit `.$`, so
the failing context (digits followed by a non-dot, a `$` without `[`, an
unterminated bracket, or a bracket whose lookahead fails) survives in the
output. -/
theorem matchAfterDot_makeKeyGenericCore_none (s : List Char)
    (h : matchAfterDot s = none) : matchAfterDot (makeKeyGenericCore s) = none := by
  cases s with
  | nil => rfl
  | cons c t =>
    by_cases hd : c.isDigit
    · have hDne : (c :: t).takeWhile Char.isDigit ≠ [] := by
        rw [List.takeWhile_cons_of_pos hd]
        simp
      have hla : lookaheadOk ((c :: t).dropWhile Char.isDigit) = false := by
        unfold matchAfterDot at h
        rw [if_neg (by simpa [List.isEmpty_iff] using hDne)] at h
        by_cases hl : lookaheadOk ((c :: t).dropWhile Char.isDigit)
        · rw [if_pos hl] at h
          cases h
        · exact Bool.eq_false_iff.mpr hl
      obtain ⟨rh, rt, hR, hrh⟩ := lookaheadOk_false_shape hla
      have hrhd : rh.isDigit = false := by
        have := List.head?_dropWhile_not Char.isDigit (c :: t)
        rw [hR] at this
        simpa using this
      have hsplit : c :: t = (c :: t).takeWhile Char.isDigit ++ rh :: rt := by
        conv_lhs => rw [← List.takeWhile_append_dropWhile (p := Char.isDigit) (l := c :: t)]
        rw [hR]
      have hDd : ∀ x ∈ (c :: t).takeWhile Char.isDigit, Char.isDigit x = true :=
        fun x hx => List.mem_takeWhile_imp hx
      have hDnd : ∀ x ∈ (c :: t).takeWhile Char.isDigit, x ≠ '.' := by
        intro x hx e
        have hxd := hDd x hx
        rw [e] at hxd
        exact absurd hxd (by decide)
      obtain ⟨u, hu⟩ := makeKeyGenericCore_cons_shape rh rt
      conv_lhs => rw [hsplit]
      rw [makeKeyGenericCore_append_no_dot _ _ hDnd, hu]
      exact matchAfterDot_digits_fail hDne hDd hrh hrhd
    · by_cases hC : c = '$'
      · subst hC
        cases t with
        | nil =>
          rw [makeKeyGenericCore_cons_ne _ (by decide)]
          decide
        | cons x t2 =>
          by_cases hx : x = '['
          · subst hx
            unfold matchAfterDot at h
            rw [List.takeWhile_cons_of_neg (by decide),
              if_pos (show (List.isEmpty ([] : List Char)) = true from rfl)] at h
            change (match t2.dropWhile (fun c => c ≠ ']') with
              | ']' :: r2 => if lookaheadOk r2 then some r2 else none
              | _ => none) = none at h
            cases hdw : t2.dropWhile (fun c => c ≠ ']') with
            | nil =>
              have hno : ∀ x ∈ t2, x ≠ ']' := by
                intro x hx2 e
                have hsp := List.takeWhile_append_dropWhile
                  (p := fun c => c ≠ ']') (l := t2)
                rw [hdw, List.append_nil] at hsp
                rw [← hsp] at hx2
                have hxp := List.mem_takeWhile_imp hx2
                rw [e] at hxp
                simp at hxp
              rw [makeKeyGenericCore_cons_ne _ (by decide),
                makeKeyGenericCore_cons_ne _ (by decide)]
              refine matchAfterDot_no_close ?_
              intro x hx2 e
              rcases mem_makeKeyGenericCore t2 x hx2 with h5 | h5 | h5
              · exact hno x h5 e
              · rw [e] at h5
                cases h5
              · rw [e] at h5
                cases h5
            | cons y r1 =>
              have hy : y = ']' := by
                have hhd := List.head?_dropWhile_not (fun c => c ≠ ']') t2
                rw [hdw] at hhd
                simpa using hhd
              subst hy
              rw [hdw] at h
              change (if lookaheadOk r1 then some r1 else none) = none at h
              have hla : lookaheadOk r1 = false := by
                by_cases hl : lookaheadOk r1
                · rw [if_pos hl] at h
                  cases h
                · exact Bool.eq_false_iff.mpr hl
              have hsp := List.takeWhile_append_dropWhile (p := fun c => c ≠ ']') (l := t2)
              rw [hdw] at hsp
              have hni : ']' ∉ t2.takeWhile (fun c => c ≠ ']') := by
                intro hmem
                have hxp := List.mem_takeWhile_imp hmem
                simp at hxp
              obtain ⟨oi, hoi, hoin⟩ := makeKeyGenericCore_bracket_interior
                (t2.takeWhile (fun c => c ≠ ']')) r1 hni hla
              rw [makeKeyGenericCore_cons_ne _ (by decide),
                makeKeyGenericCore_cons_ne _ (by decide),
                show t2 = t2.takeWhile (fun c => c ≠ ']') ++ ']' :: r1 from hsp.symm,
                hoi]
              obtain ⟨rh, rt, hR, hrh⟩ := lookaheadOk_false_shape hla
              obtain ⟨u, hu⟩ := makeKeyGenericCore_cons_shape rh rt
              rw [hR, hu]
              exact matchAfterDot_bracket_fail hoin hrh
          · rw [makeKeyGenericCore_cons_ne _ (by decide)]
            obtain ⟨u, hu⟩ := makeKeyGenericCore_cons_shape x t2
            rw [hu]
            exact matchAfterDot_dollar_not_bracket hx
      · by_cases hcd : c = '.'
        · subst hcd
          obtain ⟨u, hu⟩ := makeKeyGenericCore_cons_shape '.' t
          rw [hu]
          exact matchAfterDot_nonspecial (by decide) (by decide)
        · rw [makeKeyGenericCore_cons_ne _ hcd]
          exact matchAfterDot_nonspecial (Bool.eq_false_iff.mpr hd) hC

theorem makeKeyGenericCore_idem :
    ∀ s : List Char, makeKeyGenericCore (makeKeyGenericCore s) = makeKeyGenericCore s
  | [] => rfl
  | c :: t => by
    by_cases hc : c = '.'
    · subst hc
      cases hm : matchAfterDot t with
      | some r =>
        rw [makeKeyGenericCore_dot_some hm]
        have hnone : matchAfterDot ('$' :: makeKeyGenericCore r) = none := by
          obtain ⟨tok, heq, ht, hl⟩ := (matchAfterDot_some_iff t r).mp hm
          rcases hl with rfl | ⟨t2, rfl⟩
          · decide
          · obtain ⟨u, hu⟩ := makeKeyGenericCore_cons_shape '.' t2
            rw [hu]
            exact matchAfterDot_dollar_not_bracket (by decide)
        rw [makeKeyGenericCore_dot_none hnone, makeKeyGenericCore_cons_ne _ (by decide),
          makeKeyGenericCore_idem r]
      | none =>
        rw [makeKeyGenericCore_dot_none hm,
          makeKeyGenericCore_dot_none (matchAfterDot_makeKeyGenericCore_none t hm),
          makeKeyGenericCore_idem t]
    · rw [makeKeyGenericCore_cons_ne t hc, makeKeyGenericCore_cons_ne _ hc,
        makeKeyGenericCore_idem t]
termination_by s => s.length
decreasing_by
  all_goals
    first
      | (have hlt := matchAfterDot_length hm
         simp only [List.length_cons]
         omega)
      | (simp only [List.length_cons]
         omega)

/-- CLAIM C4.  `makeKeyGeneric` is idempotent on strings: applying it twice
gives the same result as applying it once; in particular applying it to an
already-generic path returns that path unchanged. -/
theorem c4_makeKeyGeneric_idempotent (s : List Char) :
    makeKeyGeneric (makeKeyGeneric (.vStr s)) = makeKeyGeneric (.vStr s) := by
  show JsValue.vStr (makeKeyGenericCore (makeKeyGenericCore s))
      = JsValue.vStr (makeKeyGenericCore s)
  rw [makeKeyGenericCore_idem]
